import Mathlib

/-!
Verification of the core logic of `playstore/publish.go` (a Google Play
deploy step).  Go string/file primitives are shallowly embedded on
`List Char` / `String`; filesystem and network effects are passed in
explicitly as oracles.
-/

set_option autoImplicit false

namespace PlayPublish

/-! ## Go string primitives -/

/-- The `unicode.IsSpace` restricted to the Latin-1 range, which is what
`strings.TrimSpace` consults for ASCII/Latin-1 input (the inputs the step
handles).  Covers `\t \n \v \f \r ' '` plus U+0085 and U+00A0. -/
def goIsSpace (c : Char) : Bool :=
  c.val = 32 || c.val = 9 || c.val = 10 || c.val = 11 || c.val = 12 ||
    c.val = 13 || c.val = 0x85 || c.val = 0xA0

/-- The `strings.TrimSpace`: drop leading and trailing whitespace. -/
def goTrimSpace (s : String) : String :=
  ⟨((s.data.dropWhile goIsSpace).reverse.dropWhile goIsSpace).reverse⟩

/-- The `strings.HasPrefix p s` (argument order: the prefix first). -/
def goHasPrefix (p s : String) : Bool :=
  p.data.isPrefixOf s.data

/-- The `strings.Split s ":"`: split around every colon.  Always returns a
non-empty list; `Split "" ":"` is `[""]`, as in Go. -/
def splitOnColon : List Char → List (List Char)
  | [] => [[]]
  | c :: rest =>
    match splitOnColon rest with
    | [] => [[]]
    | h :: t => if c = ':' then [] :: h :: t else (c :: h) :: t

/-! ## Expansion-file config parsing (`expFileInfo`, `validateExpansionFileConfig`,
`uploadExpansionFiles`) -/

/-- The `expFileInfo` from `publish.go`: split the entry on `":"`; fewer than two
segments is malformed; otherwise the (trimmed) first segment is the type and
the remaining segments joined with the empty string, trimmed, are the path.
Returns `(path, type)` like the Go `(expFilePth, expFileType)`. -/
def expFileInfo (expFileConfigEntry : String) : Except String (String × String) :=
  match splitOnColon expFileConfigEntry.data with
  | p0 :: p1 :: rest =>
    Except.ok (goTrimSpace ⟨(p1 :: rest).flatten⟩, goTrimSpace ⟨p0⟩)
  | _ => Except.error ("malformed expansion file path: " ++ expFileConfigEntry)

/-- The `validateExpansionFileConfig` from `publish.go`. -/
def validateExpansionFileConfig (expFileEntry : String) : Bool :=
  goHasPrefix "main:" (goTrimSpace expFileEntry) ||
    goHasPrefix "patch:" (goTrimSpace expFileEntry)

/-- The pure front end of `uploadExpansionFiles`: trim, validate, parse.
This is exactly the validation-and-parsing pipeline the Go function runs
before touching the filesystem. -/
def parseExpansionFileEntry (expFileEntry : String) : Except String (String × String) :=
  let clean := goTrimSpace expFileEntry
  if validateExpansionFileConfig clean then expFileInfo clean
  else Except.error ("invalid expansion file config: " ++ expFileEntry)

/-- The `uploadExpansionFiles`, with the filesystem open and the remote upload
call passed in as oracles.  Besides the result it returns the list of paths
for which an open was attempted, in order, so that "fails before any attempt
to open a file" is expressible. -/
def uploadExpansionFilesModel (expFileEntry : String)
    (openFile : String → Except String Unit)
    (doUpload : String → String → Except String Unit) :
    Except String Unit × List String :=
  let clean := goTrimSpace expFileEntry
  if !validateExpansionFileConfig clean then
    (Except.error ("invalid expansion file config: " ++ expFileEntry), [])
  else
    match expFileInfo clean with
    | Except.error e => (Except.error e, [])
    | Except.ok (pth, typ) =>
      match openFile pth with
      | Except.error e =>
        (Except.error ("failed to read expansion file, error: " ++ e), [pth])
      | Except.ok _ =>
        match doUpload pth typ with
        | Except.error e =>
          (Except.error ("failed to upload expansion file, error: " ++ e), [pth])
        | Except.ok _ => (Except.ok (), [pth])

/-! ## App-bundle upload error handling (`uploadAppBundle`) -/

/-- The fixed installation-warning text from `publish.go` (the two Go string
literals joined, as the `+` in the source does). -/
def bundleInstallationWarning : String :=
  "Error 403: The installation of the app bundle may be too large " ++
    "and trigger user warning on some devices, and this needs to be explicitly acknowledged in the request."

/-- Does `needle` occur as a contiguous run of the second list?  Scans the
start positions from the left. -/
def containsAux (needle : List Char) : List Char → Bool
  | [] => needle.isEmpty
  | c :: rest => needle.isPrefixOf (c :: rest) || containsAux needle rest

/-- The `strings.Contains s sub`. -/
def goContains (s sub : String) : Bool :=
  containsAux sub.data s.data

/-- The remediation hint `uploadAppBundle` appends (the text after the `\n`
in the `fmt.Sprintf` format string). -/
def ackHint : String :=
  "\nTo acknowledge this warning, set the Acknowledge Bundle Installation Warning (ack_bundle_installation_warning) input to true."

/-- The error message `uploadAppBundle` builds when the remote call fails
with error text `errText`: the wrapped raw message, with the remediation
hint appended exactly when `errText` contains the installation warning. -/
def uploadAppBundleErrMsg (errText : String) : String :=
  let msg := "failed to upload app bundle, error: " ++ errText
  if goContains errText bundleInstallationWarning then msg ++ ackHint
  else msg

/-! ## Localised release notes (`readLocalisedRecentChanges`) -/

/-- The character class `[0-9a-zA-Z]` of the locale regex. -/
def isAlnumGo (c : Char) : Bool :=
  ('0' ≤ c && c ≤ '9') || ('a' ≤ c && c ≤ 'z') || ('A' ≤ c && c ≤ 'Z')

/-- Backtracking match of the regex fragment `.*(-|$)` against the input,
with Go's leftmost-first semantics: `.*` is greedy (matches any char except
newline), and on failure it backs off one char at a time; at each stop the
alternation tries `-` before `$` (`$` only matches the end of the text).
Returns the remainder after the first match found, or `none`. -/
def dotStarDash : List Char → Option (List Char)
  | [] => some []
  | c :: rest =>
    if c = '\n' then none
    else
      match dotStarDash rest with
      | some r => some r
      | none => if c = '-' then some rest else none

/-- One iteration of the group `([0-9a-zA-Z].*(-|$))` of the locale regex:
an alphanumeric character followed by `.*(-|$)`.  Returns the remainder
after the first-found match. -/
def iterFirst : List Char → Option (List Char)
  | [] => none
  | c :: rest => if isAlnumGo c then dotStarDash rest else none

/-- Greedy repetition of `iterFirst` (the `+` of the regex, whose extra
iterations a following empty pattern never forces to backtrack).  Fuel is
the input length; each iteration consumes at least one character. -/
def starChase : Nat → List Char → List Char
  | 0, l => l
  | fuel + 1, l =>
    match iterFirst l with
    | some r => starChase fuel r
    | none => l

/-- Match of `([0-9a-zA-Z].*(-|$))+` at the start of the input (leftmost-
first).  Returns the remainder after the match found, or `none`. -/
def plusMatch (l : List Char) : Option (List Char) :=
  match iterFirst l with
  | some r => some (starChase r.length r)
  | none => none

/-- The `regexp.FindStringSubmatch` of the pattern
`whatsnew-(?P<locale>([0-9a-zA-Z].*(-|$))+)` over a char list: try each
start position from the left; at the first position where the literal
`whatsnew-` and then the group match, return the capture of group 1 (which
spans from just after the literal to the end of the whole match). -/
def findLocaleAux : List Char → Option (List Char)
  | [] => none
  | c :: rest =>
    if "whatsnew-".data.isPrefixOf (c :: rest) then
      match plusMatch ((c :: rest).drop 9) with
      | some rem =>
        some (((c :: rest).drop 9).take (((c :: rest).drop 9).length - rem.length))
      | none => findLocaleAux rest
    else findLocaleAux rest

/-- The locale tag `readLocalisedRecentChanges` extracts from one globbed
path (`matches[1]`), if the regex matches at all. -/
def findLocale (path : String) : Option String :=
  (findLocaleAux path.data).map (fun l => (⟨l⟩ : String))

/-- The `startsWithWA l` holds when `l` begins with the literal `whatsnew-`
followed by an alphanumeric character. -/
def startsWithWA (l : List Char) : Bool :=
  "whatsnew-".data.isPrefixOf l &&
    (match l.drop 9 with
     | c :: _ => isAlnumGo c
     | [] => false)

/-- The `containsWA l` holds when some position of `l` starts with `whatsnew-`
followed by an alphanumeric character. -/
def containsWA : List Char → Bool
  | [] => false
  | c :: t => startsWithWA (c :: t) || containsWA t

/-- Go map assignment `m[k] = v` on an association-list model: overwrite the
existing entry for `k` or append a new one. -/
def insertGoMap (m : List (String × String)) (k v : String) : List (String × String) :=
  if m.any (fun p => p.1 == k) then
    m.map (fun p => if p.1 == k then (k, v) else p)
  else m ++ [(k, v)]

/-- Go map read `m[k]` on the association-list model.  `insertGoMap` keeps
keys unique, so the first (only) entry for `k` is the binding. -/
def lookupGo (k : String) : List (String × String) → Option String
  | [] => none
  | (k', v) :: rest => if k' == k then some v else lookupGo k rest

/-- Byte-lexicographic string order, as `sort.Strings` uses (UTF-8 byte
order coincides with code-point order). -/
def listLe : List Char → List Char → Bool
  | [], _ => true
  | _ :: _, [] => false
  | a :: as, b :: bs => if a < b then true else if b < a then false else listLe as bs

/-- Insertion into a sorted list, for the sorted order `filepath.Glob`
returns its matches in. -/
def insertSortedStr (x : String) : List String → List String
  | [] => [x]
  | y :: ys => if listLe x.data y.data then x :: y :: ys else y :: insertSortedStr x ys

/-- Sort a list of strings (the order of `filepath.Glob` output). -/
def sortStrings : List String → List String
  | [] => []
  | x :: xs => insertSortedStr x (sortStrings xs)

/-- The loop of `readLocalisedRecentChanges` over the globbed paths: extract
the locale, skip paths the regex does not match, read each matched file,
and on a read failure return the empty map together with the error. -/
def readLoop (readFile : String → Except String String) :
    List String → List (String × String) → List (String × String) × Option String
  | [], m => (m, none)
  | p :: rest, m =>
    match findLocale p with
    | some lang =>
      match readFile p with
      | Except.ok content => readLoop readFile rest (insertGoMap m lang content)
      | Except.error e => ([], some e)
    | none => readLoop readFile rest m

/-- The `readLocalisedRecentChanges`, with the filesystem passed in: `files` is
the name listing of the directory (single path components) and `readFile`
the whole-file read.  The glob `dir/whatsnew-*` keeps exactly the names with
prefix `whatsnew-`, as full paths, sorted.  Returns the Go pair
`(map, error)`. -/
def readLocalisedRecentChangesGo (recentChangesDir : String) (files : List String)
    (readFile : String → Except String String) :
    List (String × String) × Option String :=
  let paths := sortStrings
    ((files.filter (fun n => goHasPrefix "whatsnew-" n)).map
      (fun n => recentChangesDir ++ "/" ++ n))
  readLoop readFile paths []

/-! ## Release construction (`createTrackRelease`) -/

def releaseStatusCompleted : String := "completed"
def releaseStatusInProgress : String := "inProgress"
def releaseStatusDraft : String := "draft"
def releaseStatusHalted : String := "halted"

/-- The fields of the step's `Configs` consumed by `createTrackRelease`.
Go's `float64` user fraction is embedded as `ℚ`: the code only ever
compares it with `0` and copies it, so any value-faithful numeric type with
decidable equality models it. -/
structure Configs where
  Status : String
  UserFraction : ℚ
  UpdatePriority : Int
  ReleaseName : String
  WhatsnewsDir : String

/-- The `androidpublisher.TrackRelease`, restricted to the fields the step
writes.  Release notes are the locale→text pairs (`LocalizedText`). -/
structure TrackRelease where
  VersionCodes : List Int
  Status : String
  InAppUpdatePriority : Int
  UserFraction : ℚ
  Name : String
  ReleaseNotes : List (String × String)

/-- The `releaseStatusFromConfig` from `publish.go`. -/
def releaseStatusFromConfig (userFraction : ℚ) : String :=
  if userFraction ≠ 0 then releaseStatusInProgress else releaseStatusCompleted

/-- The `shouldApplyUserFraction` from `publish.go`. -/
def shouldApplyUserFraction (status : String) : Bool :=
  status == releaseStatusInProgress || status == releaseStatusHalted

/-- The `updateListing` from `publish.go`: when a whatsnews directory is set,
read the localised notes and attach them; a read failure is wrapped and
propagated. -/
def updateListing (whatsNewsDir : String) (files : List String)
    (readFile : String → Except String String) (release : TrackRelease) :
    Except String TrackRelease :=
  if whatsNewsDir ≠ "" then
    match readLocalisedRecentChangesGo whatsNewsDir files readFile with
    | (_, some e) => Except.error ("failed to read whatsnews, error: " ++ e)
    | (m, none) => Except.ok { release with ReleaseNotes := m }
  else Except.ok release

/-- The `createTrackRelease` from `publish.go`, with the filesystem the listing
update consults passed in. -/
def createTrackRelease (config : Configs) (versionCodes : List Int)
    (files : List String) (readFile : String → Except String String) :
    Except String TrackRelease :=
  let r0 : TrackRelease :=
    { VersionCodes := versionCodes
      Status := config.Status
      InAppUpdatePriority := config.UpdatePriority
      UserFraction := 0
      Name := ""
      ReleaseNotes := [] }
  let r1 := if r0.Status == "" then
      { r0 with Status := releaseStatusFromConfig config.UserFraction }
    else r0
  let r2 := if shouldApplyUserFraction r1.Status then
      { r1 with UserFraction := config.UserFraction }
    else r1
  let r3 := if config.ReleaseName ≠ "" then { r2 with Name := config.ReleaseName } else r2
  match updateListing config.WhatsnewsDir files readFile r3 with
  | Except.error e => Except.error ("failed to update listing, reason: " ++ e)
  | Except.ok r => Except.ok r

/-! ## Lemmas: trimming -/

/-- The char-list core of `goTrimSpace`. -/
def trimList (l : List Char) : List Char :=
  List.rdropWhile goIsSpace (l.dropWhile goIsSpace)

theorem goTrimSpace_data (s : String) : (goTrimSpace s).data = trimList s.data := rfl

theorem dropWhile_head_false {p : Char → Bool} :
    ∀ (l : List Char) (x : Char) (xs : List Char),
      l.dropWhile p = x :: xs → p x = false := by
  intro l
  induction l with
  | nil => intro x xs h; simp [List.dropWhile] at h
  | cons c rest ih =>
    intro x xs h
    by_cases hc : p c
    · rw [List.dropWhile_cons_of_pos hc] at h
      exact ih x xs h
    · rw [List.dropWhile_cons_of_neg hc] at h
      cases h
      simpa using hc

theorem dropWhile_trimList (l : List Char) :
    (trimList l).dropWhile goIsSpace = trimList l := by
  unfold trimList
  rcases hrd : List.rdropWhile goIsSpace (l.dropWhile goIsSpace) with _ | ⟨x, xs⟩
  · simp
  · have hpre : List.rdropWhile goIsSpace (l.dropWhile goIsSpace) <+:
        l.dropWhile goIsSpace := List.rdropWhile_prefix _ _
    rw [hrd] at hpre
    obtain ⟨t, ht⟩ := hpre
    have hx : goIsSpace x = false := dropWhile_head_false l x (xs ++ t) ht.symm
    simp [List.dropWhile_cons_of_neg, hx]

theorem trimList_idem (l : List Char) : trimList (trimList l) = trimList l := by
  show List.rdropWhile goIsSpace ((trimList l).dropWhile goIsSpace) = trimList l
  rw [dropWhile_trimList]
  unfold trimList
  exact List.rdropWhile_idempotent _ _

theorem goTrimSpace_idem (s : String) : goTrimSpace (goTrimSpace s) = goTrimSpace s := by
  apply String.ext
  rw [goTrimSpace_data, goTrimSpace_data, trimList_idem]

theorem validate_goTrimSpace (e : String) :
    validateExpansionFileConfig (goTrimSpace e) = validateExpansionFileConfig e := by
  unfold validateExpansionFileConfig
  rw [goTrimSpace_idem]

/-- Every character of the trimmed string occurs in the original. -/
theorem mem_of_mem_goTrimSpace {c : Char} {s : String}
    (h : c ∈ (goTrimSpace s).data) : c ∈ s.data := by
  rw [goTrimSpace_data] at h
  unfold trimList at h
  have h1 : List.rdropWhile goIsSpace (s.data.dropWhile goIsSpace) <+:
      s.data.dropWhile goIsSpace := List.rdropWhile_prefix _ _
  have h2 : s.data.dropWhile goIsSpace <:+ s.data := List.dropWhile_suffix _
  exact h2.sublist.subset (h1.sublist.subset h)

/-! ## Lemmas: splitting on colons -/

theorem splitOnColon_ne_nil (l : List Char) : splitOnColon l ≠ [] := by
  cases l with
  | nil => simp [splitOnColon]
  | cons c rest =>
    unfold splitOnColon
    rcases splitOnColon rest with _ | ⟨h, t⟩
    · simp
    · by_cases hc : c = ':' <;> simp [hc]

theorem splitOnColon_no_colon {a : List Char} (ha : ':' ∉ a) (b : List Char) :
    splitOnColon (a ++ ':' :: b) = a :: splitOnColon b := by
  induction a with
  | nil =>
    show (match splitOnColon b with
      | [] => [[]]
      | h :: t => if ':' = ':' then [] :: h :: t else (':' :: h) :: t) = [] :: splitOnColon b
    rcases hsp : splitOnColon b with _ | ⟨h, t⟩
    · exact absurd hsp (splitOnColon_ne_nil b)
    · simp [hsp]
  | cons c a' ih =>
    have hc : c ≠ ':' := fun hc => ha (by simp [hc])
    have ha' : ':' ∉ a' := fun h => ha (List.mem_cons_of_mem _ h)
    show (match splitOnColon (a' ++ ':' :: b) with
      | [] => [[]]
      | h :: t => if c = ':' then [] :: h :: t else (c :: h) :: t) = (c :: a') :: splitOnColon b
    rw [ih ha']
    simp [hc]

theorem flatten_splitOnColon (l : List Char) :
    (splitOnColon l).flatten = l.filter (fun c => c != ':') := by
  induction l with
  | nil => simp [splitOnColon]
  | cons c rest ih =>
    rcases hsp : splitOnColon rest with _ | ⟨h, t⟩
    · exact absurd hsp (splitOnColon_ne_nil rest)
    · rw [hsp] at ih
      by_cases hc : c = ':' <;>
        simp [splitOnColon, hsp, hc, List.filter_cons, ← ih]

/-- The `expFileInfo` on an entry whose first colon separates a colon-free type
segment `w` from the remainder `t`: the type is `w` trimmed, the path is `t`
with every further colon removed, trimmed. -/
theorem expFileInfo_split (w : String) (hw : ':' ∉ w.data) (t : List Char) :
    expFileInfo ⟨w.data ++ ':' :: t⟩ =
      Except.ok (goTrimSpace ⟨t.filter (fun c => c != ':')⟩, goTrimSpace w) := by
  unfold expFileInfo
  show (match splitOnColon (w.data ++ ':' :: t) with
    | p0 :: p1 :: rest => Except.ok (goTrimSpace ⟨(p1 :: rest).flatten⟩, goTrimSpace ⟨p0⟩)
    | _ => Except.error _) = _
  rw [splitOnColon_no_colon hw]
  rcases hsp : splitOnColon t with _ | ⟨h, t'⟩
  · exact absurd hsp (splitOnColon_ne_nil t)
  · have hfl : (h :: t').flatten = t.filter (fun c => c != ':') := by
      rw [← hsp, flatten_splitOnColon]
    simp [hfl]

/-! ## Lemmas: prefixes and the type tag -/

theorem prefix_colon_eq {w t rest : List Char} (hw : ':' ∉ w) (ht : ':' ∉ t)
    (h : w ++ [':'] <+: t ++ ':' :: rest) : w = t := by
  have hw' : w <+: t ++ ':' :: rest := (List.prefix_append w [':']).trans h
  have ht' : t <+: t ++ ':' :: rest := List.prefix_append _ _
  rcases List.prefix_or_prefix_of_prefix hw' ht' with hc | hc
  · obtain ⟨u, hu⟩ := hc
    rcases u with _ | ⟨y, u'⟩
    · simpa using hu
    · exfalso
      rw [← hu, List.append_assoc] at h
      have h2 : [':'] <+: y :: u' ++ ':' :: rest :=
        (List.prefix_append_right_inj w).mp h
      obtain ⟨v, hv⟩ := h2
      have hy : y = ':' := by
        have hv' : ':' :: v = y :: (u' ++ ':' :: rest) := hv
        exact (List.cons.injEq _ _ _ _ ▸ hv').1.symm
      exact ht (hu ▸ List.mem_append_right w (by simp [hy]))
  · obtain ⟨u, hu⟩ := hc
    rcases u with _ | ⟨y, u'⟩
    · simpa using hu.symm
    · exfalso
      rw [← hu, List.append_assoc] at h
      have h2 : y :: u' ++ [':'] <+: ':' :: rest :=
        (List.prefix_append_right_inj t).mp h
      obtain ⟨v, hv⟩ := h2
      have hy : y = ':' := by
        have hv' : y :: ((u' ++ [':']) ++ v) = ':' :: rest := by
          simpa [List.append_assoc] using hv
        exact (List.cons.injEq _ _ _ _ ▸ hv').1
      exact hw (hu ▸ List.mem_append_right t (by simp [hy]))

/-- The `expFileInfo` on `"main:" ++ p`: type `main`, path `p` with all colons
removed, trimmed. -/
theorem expFileInfo_main (p : String) :
    expFileInfo ("main:" ++ p) =
      Except.ok (goTrimSpace ⟨p.data.filter (fun c => c != ':')⟩, "main") := by
  have hst : ("main:" ++ p) = (⟨"main".data ++ ':' :: p.data⟩ : String) := by
    apply String.ext
    rw [String.data_append]
    rfl
  rw [hst, expFileInfo_split "main" (by decide) p.data]
  rfl

/-- The `expFileInfo` on `"patch:" ++ p`: type `patch`, path `p` with all colons
removed, trimmed. -/
theorem expFileInfo_patch (p : String) :
    expFileInfo ("patch:" ++ p) =
      Except.ok (goTrimSpace ⟨p.data.filter (fun c => c != ':')⟩, "patch") := by
  have hst : ("patch:" ++ p) = (⟨"patch".data ++ ':' :: p.data⟩ : String) := by
    apply String.ext
    rw [String.data_append]
    rfl
  rw [hst, expFileInfo_split "patch" (by decide) p.data]
  rfl

/-! ## Claim C1 -/

/-- C1, counterexample: on `"main:/a:b/c.obb"` the returned path is
`"/ab/c.obb"` — the embedded colon is REMOVED, not preserved — so the claim
that `expFileInfo` returns `"/a:b/c.obb"` is false. -/
theorem C1_counterexample :
    expFileInfo "main:/a:b/c.obb" = Except.ok ("/ab/c.obb", "main") ∧
      ("/ab/c.obb" : String) ≠ "/a:b/c.obb" :=
  ⟨rfl, by decide⟩

/-- C1 (amended): for every expansion-file config entry — `"main:" ++ rest`
or `"patch:" ++ rest`, including every entry with embedded path colons —
`expFileInfo` returns the full remainder after the first colon with the
embedded colons REMOVED (the colon-separated segments are concatenated
without a separator), trimmed of whitespace. -/
theorem C1_amended :
    (∀ rest : String, expFileInfo ("main:" ++ rest) =
        Except.ok (goTrimSpace ⟨rest.data.filter (fun c => c != ':')⟩, "main")) ∧
    (∀ rest : String, expFileInfo ("patch:" ++ rest) =
        Except.ok (goTrimSpace ⟨rest.data.filter (fun c => c != ':')⟩, "patch")) :=
  ⟨expFileInfo_main, expFileInfo_patch⟩

/-! ## Claim C5 -/

/-- C5, counterexample: for the entry `"patch:a:b"` (already trimmed, of the
form `patch:<p>` with `<p> = "a:b"`), the parse pipeline returns the path
`"ab"`, not the whitespace-trimmed path `"a:b"`. -/
theorem C5_counterexample :
    parseExpansionFileEntry "patch:a:b" = Except.ok ("ab", "patch") ∧
      ("ab" : String) ≠ "a:b" :=
  ⟨rfl, by decide⟩

/-- C5 (amended): for every entry that trims to `"main:<p>"` or
`"patch:<p>"`, parsing returns type exactly `main` or `patch` and the
whitespace-trimmed path with embedded colons removed; for every entry whose
trimmed form lacks a colon, or whose type segment (the part before the
first colon) is any other string, parsing fails with the invalid-config
error. -/
theorem C5_parse_spec :
    (∀ entry p : String, goTrimSpace entry = "main:" ++ p →
        parseExpansionFileEntry entry =
          Except.ok (goTrimSpace ⟨p.data.filter (fun c => c != ':')⟩, "main")) ∧
    (∀ entry p : String, goTrimSpace entry = "patch:" ++ p →
        parseExpansionFileEntry entry =
          Except.ok (goTrimSpace ⟨p.data.filter (fun c => c != ':')⟩, "patch")) ∧
    (∀ entry : String, ':' ∉ (goTrimSpace entry).data →
        parseExpansionFileEntry entry =
          Except.error ("invalid expansion file config: " ++ entry)) ∧
    (∀ (entry : String) (t rest : List Char),
        (goTrimSpace entry).data = t ++ ':' :: rest → ':' ∉ t →
        t ≠ "main".data → t ≠ "patch".data →
        parseExpansionFileEntry entry =
          Except.error ("invalid expansion file config: " ++ entry)) := by
  refine ⟨?_, ?_, ?_, ?_⟩
  · intro entry p htrim
    have hidem : goTrimSpace ("main:" ++ p) = "main:" ++ p := by
      rw [← htrim]
      exact goTrimSpace_idem entry
    have hp : goHasPrefix "main:" ("main:" ++ p) = true := by
      unfold goHasPrefix
      rw [ List.isPrefixOf_iff_prefix, String.data_append]
      exact List.prefix_append _ _
    have hval : validateExpansionFileConfig ("main:" ++ p) = true := by
      unfold validateExpansionFileConfig
      rw [hidem, hp, Bool.true_or]
    simp only [parseExpansionFileEntry]
    rw [htrim, hval, if_pos rfl]
    exact expFileInfo_main p
  · intro entry p htrim
    have hidem : goTrimSpace ("patch:" ++ p) = "patch:" ++ p := by
      rw [← htrim]
      exact goTrimSpace_idem entry
    have hp : goHasPrefix "patch:" ("patch:" ++ p) = true := by
      unfold goHasPrefix
      rw [ List.isPrefixOf_iff_prefix, String.data_append]
      exact List.prefix_append _ _
    have hval : validateExpansionFileConfig ("patch:" ++ p) = true := by
      unfold validateExpansionFileConfig
      rw [hidem, hp, Bool.or_true]
    simp only [parseExpansionFileEntry]
    rw [htrim, hval, if_pos rfl]
    exact expFileInfo_patch p
  · intro entry hnc
    have hval : validateExpansionFileConfig entry = false := by
      unfold validateExpansionFileConfig goHasPrefix
      rw [Bool.or_eq_false_iff]
      constructor
      · rw [Bool.eq_false_iff]
        intro hcon
        rw [ List.isPrefixOf_iff_prefix] at hcon
        exact hnc (hcon.sublist.subset (by decide))
      · rw [Bool.eq_false_iff]
        intro hcon
        rw [ List.isPrefixOf_iff_prefix] at hcon
        exact hnc (hcon.sublist.subset (by decide))
    simp only [parseExpansionFileEntry]
    rw [validate_goTrimSpace, hval, if_neg (by simp)]
  · intro entry t rest hdata ht hm hp
    have hval : validateExpansionFileConfig entry = false := by
      unfold validateExpansionFileConfig goHasPrefix
      rw [Bool.or_eq_false_iff]
      constructor
      · rw [Bool.eq_false_iff]
        intro hcon
        rw [ List.isPrefixOf_iff_prefix, hdata] at hcon
        exact hm ((prefix_colon_eq (by decide) ht hcon).symm)
      · rw [Bool.eq_false_iff]
        intro hcon
        rw [ List.isPrefixOf_iff_prefix, hdata] at hcon
        exact hp ((prefix_colon_eq (by decide) ht hcon).symm)
    simp only [parseExpansionFileEntry]
    rw [validate_goTrimSpace, hval, if_neg (by simp)]

/-- C5, witness: the amended theorem applied to concrete entries. -/
theorem C5_parse_spec_witness :
    parseExpansionFileEntry " main: /x.obb " = Except.ok ("/x.obb", "main") ∧
      parseExpansionFileEntry "obb" =
        Except.error ("invalid expansion file config: " ++ "obb") ∧
      parseExpansionFileEntry "Main:/x.obb" =
        Except.error ("invalid expansion file config: " ++ "Main:/x.obb") := by
  refine ⟨?_, ?_, ?_⟩
  · have h := C5_parse_spec.1 " main: /x.obb " " /x.obb" (by decide)
    rw [h]
    rfl
  · exact C5_parse_spec.2.2.1 "obb" (by decide)
  · exact C5_parse_spec.2.2.2 "Main:/x.obb" "Main".data "/x.obb".data
      (by decide) (by decide) (by decide) (by decide)

/-! ## Claim C9 -/

/-- C9: for every entry that passes `validateExpansionFileConfig`, the
malformed-entry error branch inside `expFileInfo` is unreachable on the
cleaned entry the pipeline passes it (the split yields at least two
segments, so the result is `ok`), and the returned type is exactly `"main"`
or `"patch"`. -/
theorem C9_validated_parse (entry : String)
    (h : validateExpansionFileConfig entry = true) :
    ∃ pth : String,
      expFileInfo (goTrimSpace entry) = Except.ok (pth, "main") ∨
      expFileInfo (goTrimSpace entry) = Except.ok (pth, "patch") := by
  unfold validateExpansionFileConfig at h
  rw [Bool.or_eq_true] at h
  rcases h with h | h
  · unfold goHasPrefix at h
    rw [ List.isPrefixOf_iff_prefix] at h
    obtain ⟨u, hu⟩ := h
    refine ⟨goTrimSpace ⟨u.filter (fun c => c != ':')⟩, Or.inl ?_⟩
    have hst : goTrimSpace entry = (⟨"main".data ++ ':' :: u⟩ : String) := by
      apply String.ext
      rw [← hu]
      rfl
    rw [hst, expFileInfo_split "main" (by decide) u]
    rfl
  · unfold goHasPrefix at h
    rw [ List.isPrefixOf_iff_prefix] at h
    obtain ⟨u, hu⟩ := h
    refine ⟨goTrimSpace ⟨u.filter (fun c => c != ':')⟩, Or.inr ?_⟩
    have hst : goTrimSpace entry = (⟨"patch".data ++ ':' :: u⟩ : String) := by
      apply String.ext
      rw [← hu]
      rfl
    rw [hst, expFileInfo_split "patch" (by decide) u]
    rfl

/-- C9, witness. -/
theorem C9_validated_parse_witness :
    ∃ pth : String,
      expFileInfo (goTrimSpace "main:/x.obb") = Except.ok (pth, "main") ∨
      expFileInfo (goTrimSpace "main:/x.obb") = Except.ok (pth, "patch") :=
  C9_validated_parse "main:/x.obb" (by decide)

/-! ## Claim C6 -/

/-- C6: for every malformed expansion-file entry (one that fails
`validateExpansionFileConfig`), `uploadExpansionFiles` fails with the
invalid-config error and the list of attempted file opens is empty — no
I/O happens for a malformed entry, whatever the filesystem contains. -/
theorem C6_invalid_entry_no_open (entry : String)
    (openFile : String → Except String Unit)
    (doUpload : String → String → Except String Unit)
    (h : validateExpansionFileConfig entry = false) :
    uploadExpansionFilesModel entry openFile doUpload =
      (Except.error ("invalid expansion file config: " ++ entry), []) := by
  have hc : validateExpansionFileConfig (goTrimSpace entry) = false := by
    rw [validate_goTrimSpace]
    exact h
  simp [uploadExpansionFilesModel, hc]

/-- C6, witness: a malformed entry naming a nonexistent path is rejected
with the invalid-config error even though the filesystem oracle would fail
every open. -/
theorem C6_invalid_entry_no_open_witness :
    uploadExpansionFilesModel "obb:/missing" (fun _ => Except.error "ENOENT")
        (fun _ _ => Except.ok ()) =
      (Except.error ("invalid expansion file config: " ++ "obb:/missing"), []) :=
  C6_invalid_entry_no_open "obb:/missing" _ _ (by decide)

/-! ## Claim C4 -/

/-- C4: for every failing bundle upload, the error message carries the
remediation hint (which names `ack_bundle_installation_warning`) exactly
when the remote error text contains the fixed installation-warning phrase;
any other failure yields only the wrapped raw remote message. -/
theorem C4_bundle_error_hint (errText : String) :
    (goContains errText bundleInstallationWarning = true →
        uploadAppBundleErrMsg errText =
          "failed to upload app bundle, error: " ++ errText ++ ackHint) ∧
    (goContains errText bundleInstallationWarning = false →
        uploadAppBundleErrMsg errText =
          "failed to upload app bundle, error: " ++ errText) ∧
    goContains ackHint "ack_bundle_installation_warning" = true := by
  refine ⟨fun h => ?_, fun h => ?_, by decide⟩
  · rw [uploadAppBundleErrMsg, h]
    simp [String.append_assoc]
  · rw [uploadAppBundleErrMsg, h]
    simp

/-- C4, witness: a remote error consisting of the warning phrase itself gets
the hint; the error `"quota exceeded"` does not. -/
theorem C4_bundle_error_hint_witness :
    uploadAppBundleErrMsg bundleInstallationWarning =
      "failed to upload app bundle, error: " ++ bundleInstallationWarning ++ ackHint ∧
    uploadAppBundleErrMsg "quota exceeded" =
      "failed to upload app bundle, error: " ++ "quota exceeded" :=
  ⟨(C4_bundle_error_hint bundleInstallationWarning).1 (by decide),
    (C4_bundle_error_hint "quota exceeded").2.1 (by decide)⟩

/-! ## Lemmas: release construction -/

/-- The release value `createTrackRelease` hands to `updateListing` (the
`r3` of the let-chain), written out for reasoning. -/
def coreRelease (config : Configs) (versionCodes : List Int) : TrackRelease :=
  let r0 : TrackRelease :=
    { VersionCodes := versionCodes
      Status := config.Status
      InAppUpdatePriority := config.UpdatePriority
      UserFraction := 0
      Name := ""
      ReleaseNotes := [] }
  let r1 := if r0.Status == "" then
      { r0 with Status := releaseStatusFromConfig config.UserFraction }
    else r0
  let r2 := if shouldApplyUserFraction r1.Status then
      { r1 with UserFraction := config.UserFraction }
    else r1
  if config.ReleaseName ≠ "" then { r2 with Name := config.ReleaseName } else r2

theorem createTrackRelease_eq (config : Configs) (versionCodes : List Int)
    (files : List String) (readFile : String → Except String String) :
    createTrackRelease config versionCodes files readFile =
      match updateListing config.WhatsnewsDir files readFile
          (coreRelease config versionCodes) with
      | Except.error e => Except.error ("failed to update listing, reason: " ++ e)
      | Except.ok r => Except.ok r := rfl

theorem coreRelease_Status (config : Configs) (versionCodes : List Int) :
    (coreRelease config versionCodes).Status =
      if config.Status = "" then releaseStatusFromConfig config.UserFraction
      else config.Status := by
  unfold coreRelease
  by_cases h : config.Status = "" <;>
    simp [h, apply_ite TrackRelease.Status]

theorem coreRelease_UserFraction (config : Configs) (versionCodes : List Int) :
    (coreRelease config versionCodes).UserFraction =
      if shouldApplyUserFraction (coreRelease config versionCodes).Status then
        config.UserFraction
      else 0 := by
  rw [coreRelease_Status]
  unfold coreRelease
  by_cases h : config.Status = "" <;>
    by_cases h2 : shouldApplyUserFraction
      (if config.Status = "" then releaseStatusFromConfig config.UserFraction
       else config.Status) = true <;>
    simp_all [apply_ite TrackRelease.UserFraction, apply_ite TrackRelease.Status,
      apply_ite shouldApplyUserFraction]

theorem updateListing_ok_fields {dir : String} {files : List String}
    {readFile : String → Except String String} {r r' : TrackRelease}
    (h : updateListing dir files readFile r = Except.ok r') :
    r'.Status = r.Status ∧ r'.UserFraction = r.UserFraction := by
  unfold updateListing at h
  split at h
  · split at h
    · cases h
    · cases h
      exact ⟨rfl, rfl⟩
  · cases h
    exact ⟨rfl, rfl⟩

theorem createTrackRelease_ok_fields {config : Configs} {versionCodes : List Int}
    {files : List String} {readFile : String → Except String String}
    {r : TrackRelease}
    (h : createTrackRelease config versionCodes files readFile = Except.ok r) :
    r.Status = (coreRelease config versionCodes).Status ∧
      r.UserFraction = (coreRelease config versionCodes).UserFraction := by
  rw [createTrackRelease_eq] at h
  rcases hu : updateListing config.WhatsnewsDir files readFile
      (coreRelease config versionCodes) with e | r''
  · rw [hu] at h
    cases h
  · rw [hu] at h
    cases h
    exact updateListing_ok_fields hu

/-! ## Claim C2 -/

/-- C2: whenever `createTrackRelease` succeeds, the release has a non-zero
user fraction only if its final status is `inProgress` or `halted`; with an
explicit `draft` or `completed` status any supplied fraction is dropped
(and, the listing step aside — e.g. with no whatsnews dir — no error is
raised), while with `halted` the supplied fraction is attached. -/
theorem C2_fraction_guard (config : Configs) (versionCodes : List Int)
    (files : List String) (readFile : String → Except String String) :
    (∀ r : TrackRelease,
        createTrackRelease config versionCodes files readFile = Except.ok r →
        (r.UserFraction ≠ 0 →
            r.Status = releaseStatusInProgress ∨ r.Status = releaseStatusHalted) ∧
        ((config.Status = releaseStatusDraft ∨ config.Status = releaseStatusCompleted) →
            r.UserFraction = 0) ∧
        (config.Status = releaseStatusHalted →
            r.UserFraction = config.UserFraction)) ∧
    (config.WhatsnewsDir = "" →
        ∃ r : TrackRelease,
          createTrackRelease config versionCodes files readFile = Except.ok r) := by
  constructor
  · intro r h
    obtain ⟨hs, hf⟩ := createTrackRelease_ok_fields h
    rw [coreRelease_UserFraction] at hf
    refine ⟨?_, ?_, ?_⟩
    · intro hne
      by_cases hb : shouldApplyUserFraction (coreRelease config versionCodes).Status = true
      · have hb' := hb
        unfold shouldApplyUserFraction at hb'
        rw [Bool.or_eq_true, beq_iff_eq, beq_iff_eq] at hb'
        rw [hs]
        exact hb'
      · rw [Bool.not_eq_true] at hb
        rw [hb] at hf
        simp at hf
        exact absurd hf hne
    · intro hd
      have hcs : (coreRelease config versionCodes).Status = config.Status := by
        rw [coreRelease_Status]
        rcases hd with hd | hd <;>
          simp [hd, releaseStatusDraft, releaseStatusCompleted]
      have hb : shouldApplyUserFraction (coreRelease config versionCodes).Status = false := by
        rw [hcs]
        rcases hd with hd | hd <;>
          simp [hd, shouldApplyUserFraction, releaseStatusDraft, releaseStatusCompleted,
            releaseStatusInProgress, releaseStatusHalted]
      rw [hf, hb]
      simp
    · intro hh
      have hcs : (coreRelease config versionCodes).Status = config.Status := by
        rw [coreRelease_Status]
        simp [hh, releaseStatusHalted]
      have hb : shouldApplyUserFraction (coreRelease config versionCodes).Status = true := by
        rw [hcs, hh]
        rfl
      rw [hf, hb]
      simp
  · intro hdir
    refine ⟨coreRelease config versionCodes, ?_⟩
    rw [createTrackRelease_eq]
    have hul : updateListing config.WhatsnewsDir files readFile
        (coreRelease config versionCodes) =
        Except.ok (coreRelease config versionCodes) := by
      unfold updateListing
      simp [hdir]
    rw [hul]

/-- C2, witness: explicit `draft` status with supplied fraction `1/2` —
the build succeeds and the fraction is dropped. -/
theorem C2_fraction_guard_witness :
    ∃ r : TrackRelease,
      createTrackRelease ⟨"draft", 1/2, 0, "", ""⟩ [7] [] (fun _ => Except.ok "") =
          Except.ok r ∧
        r.UserFraction = 0 := by
  obtain ⟨r, hr⟩ :=
    (C2_fraction_guard ⟨"draft", 1/2, 0, "", ""⟩ [7] [] (fun _ => Except.ok "")).2 rfl
  exact ⟨r, hr,
    ((C2_fraction_guard ⟨"draft", 1/2, 0, "", ""⟩ [7] [] (fun _ => Except.ok "")).1 r hr).2.1
      (Or.inl rfl)⟩

/-! ## Claim C3 -/

/-- C3: with an unset (empty) status, the release status is derived from
the user fraction (`inProgress` when non-zero, `completed` when zero); a
non-empty configured status is used verbatim. -/
theorem C3_status_derivation (config : Configs) (versionCodes : List Int)
    (files : List String) (readFile : String → Except String String)
    (r : TrackRelease)
    (h : createTrackRelease config versionCodes files readFile = Except.ok r) :
    (config.Status = "" → config.UserFraction ≠ 0 →
        r.Status = releaseStatusInProgress) ∧
    (config.Status = "" → config.UserFraction = 0 →
        r.Status = releaseStatusCompleted) ∧
    (config.Status ≠ "" → r.Status = config.Status) := by
  obtain ⟨hs, _⟩ := createTrackRelease_ok_fields h
  rw [coreRelease_Status] at hs
  refine ⟨?_, ?_, ?_⟩
  · intro h1 h2
    rw [hs]
    simp [h1, releaseStatusFromConfig, h2]
  · intro h1 h2
    rw [hs]
    simp [h1, releaseStatusFromConfig, h2]
  · intro h1
    rw [hs]
    simp [h1]

/-- C3, witness: empty status and fraction `3/10` derive `inProgress`. -/
theorem C3_status_derivation_witness :
    ∃ r : TrackRelease,
      createTrackRelease ⟨"", 3/10, 0, "", ""⟩ [1] [] (fun _ => Except.ok "") =
          Except.ok r ∧
        r.Status = releaseStatusInProgress := by
  have h : createTrackRelease ⟨"", 3/10, 0, "", ""⟩ [1] [] (fun _ => Except.ok "") =
      Except.ok (coreRelease ⟨"", 3/10, 0, "", ""⟩ [1]) := rfl
  exact ⟨coreRelease ⟨"", 3/10, 0, "", ""⟩ [1], h,
    (C3_status_derivation ⟨"", 3/10, 0, "", ""⟩ [1] [] (fun _ => Except.ok "") _ h).1
      rfl (by norm_num)⟩

/-! ## Lemmas: the locale regex -/

theorem findLocaleAux_cons (c : Char) (rest : List Char) :
    findLocaleAux (c :: rest) =
      if "whatsnew-".data.isPrefixOf (c :: rest) then
        match plusMatch ((c :: rest).drop 9) with
        | some rem =>
          some (((c :: rest).drop 9).take (((c :: rest).drop 9).length - rem.length))
        | none => findLocaleAux rest
      else findLocaleAux rest := rfl

theorem drop9_wn (x : List Char) : ("whatsnew-".data ++ x).drop 9 = x := by
  have h : ("whatsnew-".data).length = 9 := rfl
  rw [← h]
  exact List.drop_left _ _

theorem dotStarDash_no_newline :
    ∀ l : List Char, '\n' ∉ l → dotStarDash l = some [] := by
  intro l
  induction l with
  | nil => intro _; rfl
  | cons c rest ih =>
    intro h
    have hc : c ≠ '\n' := fun e => h (by simp [e])
    have hr : '\n' ∉ rest := fun e => h (List.mem_cons_of_mem _ e)
    unfold dotStarDash
    rw [if_neg hc, ih hr]

theorem plusMatch_all (c : Char) (ts : List Char) (hc : isAlnumGo c = true)
    (hnl : '\n' ∉ ts) : plusMatch (c :: ts) = some [] := by
  have hi : iterFirst (c :: ts) = some [] := by
    show (if isAlnumGo c = true then dotStarDash ts else none) = some []
    rw [if_pos hc, dotStarDash_no_newline ts hnl]
  unfold plusMatch
  rw [hi]
  rfl

theorem plusMatch_head_not_alnum {c : Char} (hc : isAlnumGo c = false)
    (l : List Char) : plusMatch (c :: l) = none := by
  have hi : iterFirst (c :: l) = none := by
    show (if isAlnumGo c = true then dotStarDash l else none) = none
    rw [if_neg (by rw [hc]; exact Bool.false_ne_true)]
  unfold plusMatch
  rw [hi]

/-- Full-pattern match at the start of `whatsnew-` followed by an
alphanumeric and no newline: the capture is the whole remainder. -/
theorem findLocaleAux_wn (c : Char) (ts : List Char) (hc : isAlnumGo c = true)
    (hnl : '\n' ∉ ts) :
    findLocaleAux ("whatsnew-".data ++ c :: ts) = some (c :: ts) := by
  have hform : "whatsnew-".data ++ c :: ts =
      'w' :: ("hatsnew-".data ++ c :: ts) := rfl
  have hpre : "whatsnew-".data.isPrefixOf ('w' :: ("hatsnew-".data ++ c :: ts)) = true := by
    rw [← hform, List.isPrefixOf_iff_prefix]
    exact List.prefix_append _ _
  have hdrop : ('w' :: ("hatsnew-".data ++ c :: ts)).drop 9 = c :: ts := by
    rw [← hform]
    exact drop9_wn _
  rw [hform, findLocaleAux_cons, if_pos hpre, hdrop,
    plusMatch_all c ts hc hnl]
  simp

/-- Scanning a directory part that contains no occurrence of `whatsnew-`
followed by an alphanumeric never matches, so the search continues past the
separating `/`. -/
theorem findLocaleAux_skip_clean (t : List Char) :
    ∀ d : List Char, containsWA d = false →
      findLocaleAux (d ++ '/' :: t) = findLocaleAux ('/' :: t) := by
  intro d
  induction d with
  | nil => intro _; rfl
  | cons ch d' ih =>
    intro hW
    have hWp : startsWithWA (ch :: d') = false ∧ containsWA d' = false := by
      unfold containsWA at hW
      rw [Bool.or_eq_false_iff] at hW
      exact hW
    show findLocaleAux (ch :: (d' ++ '/' :: t)) = _
    rw [findLocaleAux_cons]
    by_cases hpre : "whatsnew-".data.isPrefixOf (ch :: (d' ++ '/' :: t)) = true
    · rw [if_pos hpre]
      have hpre' : "whatsnew-".data <+: (ch :: d') ++ '/' :: t :=
        List.isPrefixOf_iff_prefix.mp hpre
      have hsL : ch :: d' <+: (ch :: d') ++ '/' :: t := List.prefix_append _ _
      have hplus : plusMatch ((ch :: (d' ++ '/' :: t)).drop 9) = none := by
        rcases List.prefix_or_prefix_of_prefix hpre' hsL with hc1 | hc1
        · obtain ⟨v, hv⟩ := hc1
          have hL : ch :: (d' ++ '/' :: t) =
              "whatsnew-".data ++ (v ++ '/' :: t) := by
            rw [← List.cons_append, ← hv, List.append_assoc]
          rcases v with _ | ⟨y, v'⟩
          · rw [hL, drop9_wn]
            exact plusMatch_head_not_alnum (by decide) t
          · have hy : isAlnumGo y = false := by
              have hsw : startsWithWA ("whatsnew-".data ++ y :: v') = false := by
                rw [hv]
                exact hWp.1
              unfold startsWithWA at hsw
              rw [drop9_wn] at hsw
              have hp2 : "whatsnew-".data.isPrefixOf ("whatsnew-".data ++ y :: v') = true := by
                rw [ List.isPrefixOf_iff_prefix]
                exact List.prefix_append _ _
              rw [hp2] at hsw
              simpa using hsw
            rw [hL, drop9_wn]
            exact plusMatch_head_not_alnum hy _
        · obtain ⟨v, hv⟩ := hc1
          rcases v with _ | ⟨y, v'⟩
          · have hv' : ch :: d' = "whatsnew-".data := by simpa using hv
            have hL : ch :: (d' ++ '/' :: t) = "whatsnew-".data ++ '/' :: t := by
              rw [← List.cons_append, hv']
            rw [hL, drop9_wn]
            exact plusMatch_head_not_alnum (by decide) t
          · exfalso
            rw [← hv] at hpre'
            have h2 : y :: v' <+: '/' :: t :=
              (List.prefix_append_right_inj (ch :: d')).mp hpre'
            obtain ⟨u2, hu2⟩ := h2
            have hy : y = '/' :=
              (List.cons.injEq _ _ _ _ ▸ (show y :: (v' ++ u2) = '/' :: t from hu2)).1
            have hmem : '/' ∈ "whatsnew-".data := by
              rw [← hv, hy]
              exact List.mem_append_right _ (by simp)
            exact absurd hmem (by decide)
      rw [hplus]
      exact ih hWp.2
    · rw [if_neg hpre]
      exact ih hWp.2

/-- The locale key extracted from a clean directory plus a well-formed
`whatsnew-` file name is exactly the tag after `whatsnew-`. -/
theorem findLocale_clean_path (dir : String) (hdir : containsWA dir.data = false)
    (c : Char) (ts : List Char) (hc : isAlnumGo c = true) (hnl : '\n' ∉ ts) :
    findLocale (dir ++ "/" ++ ("whatsnew-" ++ (⟨c :: ts⟩ : String))) =
      some ⟨c :: ts⟩ := by
  unfold findLocale
  have hdata : (dir ++ "/" ++ ("whatsnew-" ++ (⟨c :: ts⟩ : String))).data =
      dir.data ++ '/' :: ("whatsnew-".data ++ c :: ts) := by
    rw [String.data_append, String.data_append, String.data_append,
      List.append_assoc]
    rfl
  rw [hdata, findLocaleAux_skip_clean _ dir.data hdir]
  have hslash : findLocaleAux ('/' :: ("whatsnew-".data ++ c :: ts)) =
      findLocaleAux ("whatsnew-".data ++ c :: ts) := by
    rw [findLocaleAux_cons]
    have hfalse : "whatsnew-".data.isPrefixOf
        ('/' :: ("whatsnew-".data ++ c :: ts)) = false := rfl
    rw [if_neg (by rw [hfalse]; exact Bool.false_ne_true)]
  rw [hslash, findLocaleAux_wn c ts hc hnl]
  rfl

/-! ## Lemmas: glob order and the read loop -/

theorem listLe_append (d x y : List Char) : listLe (d ++ x) (d ++ y) = listLe x y := by
  induction d with
  | nil => rfl
  | cons a d' ih =>
    show (if a < a then true else if a < a then false else listLe (d' ++ x) (d' ++ y)) =
      listLe x y
    rw [if_neg (lt_irrefl a), if_neg (lt_irrefl a), ih]

theorem readLoop_nil (readFile : String → Except String String)
    (m : List (String × String)) : readLoop readFile [] m = (m, none) := rfl

theorem readLoop_cons (readFile : String → Except String String)
    (p : String) (rest : List String) (m : List (String × String)) :
    readLoop readFile (p :: rest) m =
      match findLocale p with
      | some lang =>
        match readFile p with
        | Except.ok content => readLoop readFile rest (insertGoMap m lang content)
        | Except.error e => ([], some e)
      | none => readLoop readFile rest m := rfl

theorem readLoop_error_empty (readFile : String → Except String String) :
    ∀ (paths : List String) (m0 m : List (String × String)) (e : String),
      readLoop readFile paths m0 = (m, some e) → m = [] := by
  intro paths
  induction paths with
  | nil =>
    intro m0 m e h
    rw [readLoop_nil] at h
    exact absurd (congrArg Prod.snd h) (by simp)
  | cons p rest ih =>
    intro m0 m e h
    rw [readLoop_cons] at h
    rcases hfl : findLocale p with _ | lang
    · rw [hfl] at h
      exact ih _ m e h
    · rw [hfl] at h
      rcases hrf : readFile p with e' | content
      · rw [hrf] at h
        exact (congrArg Prod.fst h).symm
      · rw [hrf] at h
        exact ih _ m e h

theorem insertSortedStr_perm (x : String) (l : List String) :
    (insertSortedStr x l).Perm (x :: l) := by
  induction l with
  | nil => exact List.Perm.refl _
  | cons y ys ih =>
    show (if listLe x.data y.data then x :: y :: ys
      else y :: insertSortedStr x ys).Perm (x :: y :: ys)
    by_cases h : listLe x.data y.data = true
    · rw [if_pos h]
    · rw [if_neg h]
      exact (List.Perm.cons y ih).trans (List.Perm.swap x y ys)

theorem sortStrings_perm (l : List String) : (sortStrings l).Perm l := by
  induction l with
  | nil => exact List.Perm.refl _
  | cons x xs ih =>
    show (insertSortedStr x (sortStrings xs)).Perm (x :: xs)
    exact (insertSortedStr_perm x (sortStrings xs)).trans (List.Perm.cons x ih)

theorem string_append_right_injective (s : String) :
    Function.Injective (fun t => s ++ t) := by
  intro a b h
  apply String.ext
  have h2 : (s ++ a).data = (s ++ b).data := congrArg String.data h
  rw [String.data_append, String.data_append] at h2
  exact List.append_cancel_left h2

/-! ## Lemmas: the Go map model -/

theorem lookupGo_map_replace (k v : String) :
    ∀ m : List (String × String), m.any (fun p => p.1 == k) = true →
      lookupGo k (m.map (fun p => if p.1 == k then (k, v) else p)) = some v := by
  intro m
  induction m with
  | nil => intro h; simp at h
  | cons pr rest ih =>
    obtain ⟨a, b⟩ := pr
    intro h
    by_cases ha : (a == k) = true
    · show lookupGo k ((if a == k then (k, v) else (a, b)) ::
        rest.map (fun p => if p.1 == k then (k, v) else p)) = some v
      rw [if_pos ha]
      show (if k == k then some v else
        lookupGo k (rest.map (fun p => if p.1 == k then (k, v) else p))) = some v
      rw [if_pos (beq_self_eq_true k)]
    · have ha' : (a == k) = false := Bool.eq_false_iff.mpr ha
      have hrest : rest.any (fun p => p.1 == k) = true := by
        rw [List.any_cons] at h
        have h' : ((a == k) || rest.any (fun p => p.1 == k)) = true := h
        rw [ha', Bool.false_or] at h'
        exact h'
      show lookupGo k ((if a == k then (k, v) else (a, b)) ::
        rest.map (fun p => if p.1 == k then (k, v) else p)) = some v
      rw [if_neg ha]
      show (if a == k then some b else
        lookupGo k (rest.map (fun p => if p.1 == k then (k, v) else p))) = some v
      rw [if_neg ha]
      exact ih hrest

theorem lookupGo_append_self (k v : String) :
    ∀ m : List (String × String), m.any (fun p => p.1 == k) = false →
      lookupGo k (m ++ [(k, v)]) = some v := by
  intro m
  induction m with
  | nil =>
    intro _
    show (if k == k then some v else lookupGo k []) = some v
    rw [if_pos (beq_self_eq_true k)]
  | cons pr rest ih =>
    obtain ⟨a, b⟩ := pr
    intro h
    have hparts : (a == k) = false ∧ rest.any (fun p => p.1 == k) = false := by
      rw [List.any_cons, Bool.or_eq_false_iff] at h
      exact h
    show (if a == k then some b else lookupGo k (rest ++ [(k, v)])) = some v
    rw [if_neg (by rw [hparts.1]; exact Bool.false_ne_true)]
    exact ih hparts.2

theorem lookupGo_map_replace_ne (k lang v : String) (hne : (lang == k) = false) :
    ∀ m : List (String × String),
      lookupGo k (m.map (fun p => if p.1 == lang then (lang, v) else p)) =
        lookupGo k m := by
  intro m
  induction m with
  | nil => rfl
  | cons pr rest ih =>
    obtain ⟨a, b⟩ := pr
    by_cases ha : (a == lang) = true
    · have hak : (a == k) = false := by
        have haeq : a = lang := by simpa using ha
        rw [haeq]
        exact hne
      show lookupGo k ((if a == lang then (lang, v) else (a, b)) ::
        rest.map (fun p => if p.1 == lang then (lang, v) else p)) =
        lookupGo k ((a, b) :: rest)
      rw [if_pos ha]
      show (if lang == k then some v else
          lookupGo k (rest.map (fun p => if p.1 == lang then (lang, v) else p))) =
        (if a == k then some b else lookupGo k rest)
      rw [if_neg (by rw [hne]; exact Bool.false_ne_true),
        if_neg (by rw [hak]; exact Bool.false_ne_true)]
      exact ih
    · show lookupGo k ((if a == lang then (lang, v) else (a, b)) ::
        rest.map (fun p => if p.1 == lang then (lang, v) else p)) =
        lookupGo k ((a, b) :: rest)
      rw [if_neg ha]
      show (if a == k then some b else
          lookupGo k (rest.map (fun p => if p.1 == lang then (lang, v) else p))) =
        (if a == k then some b else lookupGo k rest)
      rw [ih]

theorem lookupGo_append_ne (k lang w : String) (hne : (lang == k) = false) :
    ∀ m : List (String × String), lookupGo k (m ++ [(lang, w)]) = lookupGo k m := by
  intro m
  induction m with
  | nil =>
    show (if lang == k then some w else lookupGo k []) = none
    rw [if_neg (by rw [hne]; exact Bool.false_ne_true)]
    rfl
  | cons pr rest ih =>
    obtain ⟨a, b⟩ := pr
    show (if a == k then some b else lookupGo k (rest ++ [(lang, w)])) =
      (if a == k then some b else lookupGo k rest)
    rw [ih]

theorem lookupGo_insertGoMap_self (m : List (String × String)) (k v : String) :
    lookupGo k (insertGoMap m k v) = some v := by
  unfold insertGoMap
  by_cases h : m.any (fun p => p.1 == k) = true
  · rw [if_pos h]
    exact lookupGo_map_replace k v m h
  · rw [if_neg h]
    exact lookupGo_append_self k v m (Bool.eq_false_iff.mpr h)

theorem lookupGo_insertGoMap_ne (m : List (String × String)) (k lang w : String)
    (hne : (lang == k) = false) :
    lookupGo k (insertGoMap m lang w) = lookupGo k m := by
  unfold insertGoMap
  by_cases h : m.any (fun p => p.1 == lang) = true
  · rw [if_pos h]
    exact lookupGo_map_replace_ne k lang w hne m
  · rw [if_neg h]
    exact lookupGo_append_ne k lang w hne m

/-! ## Lemmas: the read loop on well-formed directories -/

theorem readLoop_ok_none (readFile : String → Except String String) :
    ∀ (paths : List String) (m : List (String × String)),
      (∀ p ∈ paths, ∀ lang, findLocale p = some lang →
          ∃ w, readFile p = Except.ok w) →
      (readLoop readFile paths m).2 = none := by
  intro paths
  induction paths with
  | nil => intro m _; rfl
  | cons p rest ih =>
    intro m hall
    rcases hfl : findLocale p with _ | lang
    · have hstep : readLoop readFile (p :: rest) m = readLoop readFile rest m := by
        simp only [readLoop_cons, hfl]
      rw [hstep]
      exact ih m (fun q hq => hall q (List.mem_cons_of_mem p hq))
    · obtain ⟨w, hw⟩ := hall p (List.mem_cons_self p rest) lang hfl
      have hstep : readLoop readFile (p :: rest) m =
          readLoop readFile rest (insertGoMap m lang w) := by
        simp only [readLoop_cons, hfl, hw]
      rw [hstep]
      exact ih _ (fun q hq => hall q (List.mem_cons_of_mem p hq))

theorem readLoop_lookup_skip (readFile : String → Except String String) (k : String) :
    ∀ (paths : List String) (m : List (String × String)),
      (∀ p ∈ paths, ∃ lang w, findLocale p = some lang ∧ readFile p = Except.ok w) →
      (∀ p ∈ paths, ∀ lang, findLocale p = some lang → (lang == k) = false) →
      lookupGo k (readLoop readFile paths m).1 = lookupGo k m := by
  intro paths
  induction paths with
  | nil => intro m _ _; rfl
  | cons p rest ih =>
    intro m hall hkeys
    obtain ⟨lang, w, hfl, hw⟩ := hall p (List.mem_cons_self p rest)
    have hstep : readLoop readFile (p :: rest) m =
        readLoop readFile rest (insertGoMap m lang w) := by
      simp only [readLoop_cons, hfl, hw]
    rw [hstep,
      ih (insertGoMap m lang w) (fun q hq => hall q (List.mem_cons_of_mem p hq))
        (fun q hq => hkeys q (List.mem_cons_of_mem p hq))]
    exact lookupGo_insertGoMap_ne m k lang w (hkeys p (List.mem_cons_self p rest) lang hfl)

theorem readLoop_lookup (readFile : String → Except String String) (k v : String) :
    ∀ (paths : List String) (m : List (String × String)) (p0 : String),
      paths.Nodup →
      (∀ p ∈ paths, ∃ lang w, findLocale p = some lang ∧ readFile p = Except.ok w) →
      p0 ∈ paths → findLocale p0 = some k → readFile p0 = Except.ok v →
      (∀ p ∈ paths, p ≠ p0 → ∀ lang, findLocale p = some lang → (lang == k) = false) →
      lookupGo k (readLoop readFile paths m).1 = some v := by
  intro paths
  induction paths with
  | nil => intro m p0 _ _ hmem; exact absurd hmem (List.not_mem_nil p0)
  | cons p rest ih =>
    intro m p0 hnd hall hmem hfl0 hrf0 hdist
    obtain ⟨lang, w, hfl, hw⟩ := hall p (List.mem_cons_self p rest)
    have hstep : readLoop readFile (p :: rest) m =
        readLoop readFile rest (insertGoMap m lang w) := by
      simp only [readLoop_cons, hfl, hw]
    rw [hstep]
    rw [List.nodup_cons] at hnd
    rcases List.mem_cons.mp hmem with heq | hmemrest
    · have hlangk : lang = k := by
        rw [heq, hfl] at hfl0
        exact Option.some.inj hfl0
      have hwv : w = v := by
        rw [heq, hw] at hrf0
        injection hrf0
      rw [hlangk, hwv]
      have hkeysrest : ∀ q ∈ rest, ∀ lang', findLocale q = some lang' →
          (lang' == k) = false := by
        intro q hq lang' hfl'
        have hqne : q ≠ p0 := fun hqq => hnd.1 (by rw [← heq, ← hqq]; exact hq)
        exact hdist q (List.mem_cons_of_mem p hq) hqne lang' hfl'
      rw [readLoop_lookup_skip readFile k rest (insertGoMap m k v)
        (fun q hq => hall q (List.mem_cons_of_mem p hq)) hkeysrest]
      exact lookupGo_insertGoMap_self m k v
    · exact ih (insertGoMap m lang w) p0 hnd.2
        (fun q hq => hall q (List.mem_cons_of_mem p hq)) hmemrest hfl0 hrf0
        (fun q hq hqne => hdist q (List.mem_cons_of_mem p hq) hqne)

theorem readLoop_error_propagates (readFile : String → Except String String) :
    ∀ (paths : List String) (m : List (String × String)),
      (∃ p ∈ paths, (findLocale p).isSome = true ∧
          ∃ e, readFile p = Except.error e) →
      ∃ p' e', p' ∈ paths ∧ readFile p' = Except.error e' ∧
        readLoop readFile paths m = ([], some e') := by
  intro paths
  induction paths with
  | nil =>
    intro m h
    obtain ⟨p, hp, _⟩ := h
    exact absurd hp (List.not_mem_nil p)
  | cons p rest ih =>
    intro m h
    rcases hfl : findLocale p with _ | lang
    · have hstep : readLoop readFile (p :: rest) m = readLoop readFile rest m := by
        simp only [readLoop_cons, hfl]
      obtain ⟨q, hq, hqs, e, he⟩ := h
      have hqrest : q ∈ rest := by
        rcases List.mem_cons.mp hq with rfl | hr
        · rw [hfl] at hqs
          simp at hqs
        · exact hr
      obtain ⟨p', e', hp', hrf', hloop⟩ := ih m ⟨q, hqrest, hqs, e, he⟩
      exact ⟨p', e', List.mem_cons_of_mem p hp', hrf', hstep.trans hloop⟩
    · rcases hrf : readFile p with e | w
      · refine ⟨p, e, List.mem_cons_self p rest, hrf, ?_⟩
        simp only [readLoop_cons, hfl, hrf]
      · have hstep : readLoop readFile (p :: rest) m =
            readLoop readFile rest (insertGoMap m lang w) := by
          simp only [readLoop_cons, hfl, hrf]
        obtain ⟨q, hq, hqs, e, he⟩ := h
        have hqrest : q ∈ rest := by
          rcases List.mem_cons.mp hq with rfl | hr
          · rw [hrf] at he
            simp at he
          · exact hr
        obtain ⟨p', e', hp', hrf', hloop⟩ :=
          ih (insertGoMap m lang w) ⟨q, hqrest, hqs, e, he⟩
        exact ⟨p', e', List.mem_cons_of_mem p hp', hrf', hstep.trans hloop⟩

/-! ## Claim C8 -/

/-- C8: if no file matches the `whatsnew-*` glob the reader returns an
empty map and no error; whenever it returns an error the accompanying map
is empty (never partially populated); and a failed read of a glob- and
regex-matched file IS propagated: the function then returns the empty map
together with an error that is the read error of one of the directory's
files. -/
theorem C8_empty_and_failfast (dir : String) (files : List String)
    (readFile : String → Except String String) :
    ((∀ n ∈ files, goHasPrefix "whatsnew-" n = false) →
        readLocalisedRecentChangesGo dir files readFile = ([], none)) ∧
    (∀ (m : List (String × String)) (e : String),
        readLocalisedRecentChangesGo dir files readFile = (m, some e) → m = []) ∧
    (∀ n : String, n ∈ files → goHasPrefix "whatsnew-" n = true →
        (findLocale (dir ++ "/" ++ n)).isSome = true →
        (∃ e, readFile (dir ++ "/" ++ n) = Except.error e) →
        ∃ e', (∃ n' ∈ files, readFile (dir ++ "/" ++ n') = Except.error e') ∧
          readLocalisedRecentChangesGo dir files readFile = ([], some e')) := by
  refine ⟨?_, ?_, ?_⟩
  · intro h
    unfold readLocalisedRecentChangesGo
    have hfil : files.filter (fun n => goHasPrefix "whatsnew-" n) = [] :=
      List.filter_eq_nil_iff.mpr (fun n hn => by rw [h n hn]; exact Bool.false_ne_true)
    rw [hfil]
    rfl
  · intro m e h
    unfold readLocalisedRecentChangesGo at h
    exact readLoop_error_empty readFile _ _ m e h
  · intro n hn hpref hsome hfail
    have hmem : (dir ++ "/" ++ n) ∈ sortStrings
        ((files.filter (fun n => goHasPrefix "whatsnew-" n)).map
          (fun n => dir ++ "/" ++ n)) := by
      apply (sortStrings_perm _).mem_iff.mpr
      exact List.mem_map_of_mem _ (List.mem_filter.mpr ⟨hn, hpref⟩)
    obtain ⟨p', e', hp', hrf', hloop⟩ :=
      readLoop_error_propagates readFile _ [] ⟨dir ++ "/" ++ n, hmem, hsome, hfail⟩
    have hp'' := (sortStrings_perm _).mem_iff.mp hp'
    obtain ⟨n', hn'f, hn'eq⟩ := List.mem_map.mp hp''
    exact ⟨e', ⟨n', (List.mem_filter.mp hn'f).1, by rw [hn'eq]; exact hrf'⟩, hloop⟩

/-- C8, witness: a directory with only `notes.txt` yields the empty map and
no error; a directory whose matched file `whatsnew-fr` fails to read yields
the empty map together with the error. -/
theorem C8_empty_and_failfast_witness :
    readLocalisedRecentChangesGo "d" ["notes.txt"] (fun _ => Except.ok "") =
        ([], none) ∧
      ∃ e', readLocalisedRecentChangesGo "d" ["whatsnew-fr"]
          (fun _ => Except.error "EIO") = ([], some e') := by
  constructor
  · exact (C8_empty_and_failfast "d" ["notes.txt"] (fun _ => Except.ok "")).1 (by decide)
  · obtain ⟨e', _, hloop⟩ :=
      (C8_empty_and_failfast "d" ["whatsnew-fr"] (fun _ => Except.error "EIO")).2.2
        "whatsnew-fr" (by decide) (by decide) (by decide) ⟨"EIO", rfl⟩
    exact ⟨e', hloop⟩

/-! ## Claim C7 -/

/-- C7: a directory (whose own path contains no `whatsnew-` + alphanumeric
occurrence, cf. C10) holding exactly `whatsnew-en-US`, `whatsnew-fr` and
`notes.txt` yields the map with exactly the keys `en-US` and `fr`, each
bound to the corresponding file content, and nothing for `notes.txt`. -/
theorem C7_locale_map (dir c1 c2 : String)
    (readFile : String → Except String String)
    (hdir : containsWA dir.data = false)
    (h1 : readFile (dir ++ "/" ++ "whatsnew-en-US") = Except.ok c1)
    (h2 : readFile (dir ++ "/" ++ "whatsnew-fr") = Except.ok c2) :
    readLocalisedRecentChangesGo dir ["whatsnew-en-US", "whatsnew-fr", "notes.txt"]
        readFile = ([("en-US", c1), ("fr", c2)], none) := by
  unfold readLocalisedRecentChangesGo
  have hfil : (["whatsnew-en-US", "whatsnew-fr", "notes.txt"].filter
      (fun n => goHasPrefix "whatsnew-" n)) = ["whatsnew-en-US", "whatsnew-fr"] := by
    decide
  rw [hfil, List.map_cons, List.map_cons, List.map_nil]
  have hle : listLe (dir ++ "/" ++ "whatsnew-en-US").data
      (dir ++ "/" ++ "whatsnew-fr").data = true := by
    rw [String.data_append (dir ++ "/") "whatsnew-en-US",
      String.data_append (dir ++ "/") "whatsnew-fr", listLe_append]
    decide
  have hsort : sortStrings [dir ++ "/" ++ "whatsnew-en-US", dir ++ "/" ++ "whatsnew-fr"] =
      [dir ++ "/" ++ "whatsnew-en-US", dir ++ "/" ++ "whatsnew-fr"] := by
    show (if listLe (dir ++ "/" ++ "whatsnew-en-US").data
          (dir ++ "/" ++ "whatsnew-fr").data then
        [dir ++ "/" ++ "whatsnew-en-US", dir ++ "/" ++ "whatsnew-fr"]
      else (dir ++ "/" ++ "whatsnew-fr") ::
        insertSortedStr (dir ++ "/" ++ "whatsnew-en-US") []) =
      [dir ++ "/" ++ "whatsnew-en-US", dir ++ "/" ++ "whatsnew-fr"]
    rw [if_pos hle]
  rw [hsort]
  have hf1 : findLocale (dir ++ "/" ++ "whatsnew-en-US") = some "en-US" := by
    have hn : ("whatsnew-en-US" : String) =
        "whatsnew-" ++ (⟨'e' :: "n-US".data⟩ : String) := rfl
    rw [hn]
    exact findLocale_clean_path dir hdir 'e' "n-US".data (by decide) (by decide)
  have hf2 : findLocale (dir ++ "/" ++ "whatsnew-fr") = some "fr" := by
    have hn : ("whatsnew-fr" : String) =
        "whatsnew-" ++ (⟨'f' :: "r".data⟩ : String) := rfl
    rw [hn]
    exact findLocale_clean_path dir hdir 'f' "r".data (by decide) (by decide)
  have hi1 : insertGoMap [] "en-US" c1 = [("en-US", c1)] := rfl
  have hi2 : insertGoMap [("en-US", c1)] "fr" c2 = [("en-US", c1), ("fr", c2)] := by
    have hany : [("en-US", c1)].any (fun p => p.1 == "fr") = false := rfl
    unfold insertGoMap
    rw [if_neg (by rw [hany]; exact Bool.false_ne_true)]
    rfl
  simp only [readLoop_cons, hf1, h1, hi1, hf2, h2, hi2, readLoop_nil]

/-- C7, witness. -/
theorem C7_locale_map_witness :
    readLocalisedRecentChangesGo "changes" ["whatsnew-en-US", "whatsnew-fr", "notes.txt"]
        (fun _ => Except.ok "hi") = ([("en-US", "hi"), ("fr", "hi")], none) :=
  C7_locale_map "changes" "hi" "hi" (fun _ => Except.ok "hi") (by decide) rfl rfl

/-! ## Claim C10 -/

/-- C10, counterexample: with a directory `"d"` containing no occurrence of
`whatsnew-` followed by an alphanumeric, the universal half of the claim
fails in three ways.  The file `whatsnew--a` (tag `-a`, non-alphanumeric
start) yields NO key at all; the file name `whatsnew-a` followed by a
newline and `b` (the regex's `.` excludes newlines and no `-` precedes the
newline) also yields NO key; and a `whatsnew-a-` name continuing with a
newline and `b` yields the TRUNCATED key `a-`, not its tag `a-`+newline+`b`
— so "each file `whatsnew-<tag>` yields the key `<tag>`" is false for such
tags, and a malformed file can even produce another file's tag as its
key. -/
theorem C10_counterexample :
    containsWA ("d" : String).data = false ∧
      readLocalisedRecentChangesGo "d" ["whatsnew--a"] (fun _ => Except.ok "x") =
        ([], none) ∧
      readLocalisedRecentChangesGo "d" ["whatsnew-a\nb"] (fun _ => Except.ok "x") =
        ([], none) ∧
      readLocalisedRecentChangesGo "d" ["whatsnew-a-\nb"] (fun _ => Except.ok "x") =
        ([("a-", "x")], none) ∧
      ("a-" : String) ≠ "a-\nb" :=
  ⟨by decide, rfl, rfl, rfl, by decide⟩

theorem goHasPrefix_wn_append (x : String) :
    goHasPrefix "whatsnew-" ("whatsnew-" ++ x) = true := by
  unfold goHasPrefix
  rw [ List.isPrefixOf_iff_prefix, String.data_append]
  exact List.prefix_append _ _

/-- C10 (amended): the locale regex is matched against the full globbed
path, leftmost match first.  For every directory whose path contains no
occurrence of `whatsnew-` followed by an alphanumeric character and whose
glob-matched files all carry tags that begin with an alphanumeric character
and contain no newline (malformed tags yield no key or a truncated one, cf.
the counterexample), the reader succeeds and each file `whatsnew-<tag>`
yields the key `<tag>` bound to that file's content; and for the directory
`whatsnew-x`, the produced key (`x/whatsnew-fr`) includes directory-path
text rather than only the filename's locale tag. -/
theorem C10_regex_full_path :
    (∀ (dir : String) (files : List String)
        (readFile : String → Except String String),
        containsWA dir.data = false →
        files.Nodup →
        (∀ n ∈ files, goHasPrefix "whatsnew-" n = true →
            ∃ (c : Char) (ts : List Char), n = "whatsnew-" ++ (⟨c :: ts⟩ : String) ∧
              isAlnumGo c = true ∧ '\n' ∉ ts) →
        (∀ n ∈ files, goHasPrefix "whatsnew-" n = true →
            ∃ w, readFile (dir ++ "/" ++ n) = Except.ok w) →
        (readLocalisedRecentChangesGo dir files readFile).2 = none ∧
        (∀ (c : Char) (ts : List Char) (v : String),
            ("whatsnew-" ++ (⟨c :: ts⟩ : String)) ∈ files →
            isAlnumGo c = true → '\n' ∉ ts →
            readFile (dir ++ "/" ++ ("whatsnew-" ++ (⟨c :: ts⟩ : String))) =
              Except.ok v →
            lookupGo ⟨c :: ts⟩
              (readLocalisedRecentChangesGo dir files readFile).1 = some v)) ∧
    readLocalisedRecentChangesGo "whatsnew-x" ["whatsnew-fr"] (fun _ => Except.ok "y") =
      ([("x/whatsnew-fr", "y")], none) := by
  constructor
  · intro dir files readFile hdir hnd hgood hreads
    have hall : ∀ p ∈ sortStrings
        ((files.filter (fun n => goHasPrefix "whatsnew-" n)).map
          (fun n => dir ++ "/" ++ n)),
        ∃ lang w, findLocale p = some lang ∧ readFile p = Except.ok w := by
      intro p hp
      obtain ⟨n, hnf, hne⟩ := List.mem_map.mp ((sortStrings_perm _).mem_iff.mp hp)
      obtain ⟨hnfiles, hnpref⟩ := List.mem_filter.mp hnf
      obtain ⟨c, ts, hn, hc, hnl⟩ := hgood n hnfiles hnpref
      obtain ⟨w, hw⟩ := hreads n hnfiles hnpref
      refine ⟨⟨c :: ts⟩, w, ?_, ?_⟩
      · rw [← hne, hn]
        exact findLocale_clean_path dir hdir c ts hc hnl
      · rw [← hne]
        exact hw
    constructor
    · exact readLoop_ok_none readFile _ []
        (fun p hp lang _ => by obtain ⟨_, w, _, hw⟩ := hall p hp; exact ⟨w, hw⟩)
    · intro c ts v hmemf hc hnl hrf
      have hndL : (sortStrings
          ((files.filter (fun n => goHasPrefix "whatsnew-" n)).map
            (fun n => dir ++ "/" ++ n))).Nodup :=
        ((sortStrings_perm _).nodup_iff).mpr
          (List.Nodup.map (string_append_right_injective (dir ++ "/"))
            (hnd.filter _))
      have hmemp : (dir ++ "/" ++ ("whatsnew-" ++ (⟨c :: ts⟩ : String))) ∈ sortStrings
          ((files.filter (fun n => goHasPrefix "whatsnew-" n)).map
            (fun n => dir ++ "/" ++ n)) :=
        (sortStrings_perm _).mem_iff.mpr
          (List.mem_map_of_mem _
            (List.mem_filter.mpr ⟨hmemf, goHasPrefix_wn_append _⟩))
      have hdist : ∀ p ∈ sortStrings
          ((files.filter (fun n => goHasPrefix "whatsnew-" n)).map
            (fun n => dir ++ "/" ++ n)),
          p ≠ dir ++ "/" ++ ("whatsnew-" ++ (⟨c :: ts⟩ : String)) →
          ∀ lang, findLocale p = some lang →
          (lang == (⟨c :: ts⟩ : String)) = false := by
        intro p hp hpne lang hfl
        obtain ⟨n, hnf, hne⟩ := List.mem_map.mp ((sortStrings_perm _).mem_iff.mp hp)
        obtain ⟨hnfiles, hnpref⟩ := List.mem_filter.mp hnf
        obtain ⟨c', ts', hn', hc', hnl'⟩ := hgood n hnfiles hnpref
        have hfl' : findLocale p = some ⟨c' :: ts'⟩ := by
          rw [← hne, hn']
          exact findLocale_clean_path dir hdir c' ts' hc' hnl'
        have hlang : lang = (⟨c' :: ts'⟩ : String) := by
          rw [hfl] at hfl'
          exact Option.some.inj hfl'
        rw [hlang, beq_eq_false_iff_ne]
        intro heqtags
        apply hpne
        rw [← hne, hn', heqtags]
      exact readLoop_lookup readFile ⟨c :: ts⟩ v _ []
        (dir ++ "/" ++ ("whatsnew-" ++ (⟨c :: ts⟩ : String))) hndL hall hmemp
        (findLocale_clean_path dir hdir c ts hc hnl) hrf hdist
  · rfl

/-- C10, witness: a three-file directory exercising the universal half. -/
theorem C10_regex_full_path_witness :
    (readLocalisedRecentChangesGo "notes" ["whatsnew-fr", "whatsnew-en-US", "notes.txt"]
        (fun _ => Except.ok "y")).2 = none ∧
      lookupGo "fr" (readLocalisedRecentChangesGo "notes"
        ["whatsnew-fr", "whatsnew-en-US", "notes.txt"] (fun _ => Except.ok "y")).1 =
        some "y" := by
  have hgood : ∀ n ∈ ["whatsnew-fr", "whatsnew-en-US", "notes.txt"],
      goHasPrefix "whatsnew-" n = true →
      ∃ (c : Char) (ts : List Char), n = "whatsnew-" ++ (⟨c :: ts⟩ : String) ∧
        isAlnumGo c = true ∧ '\n' ∉ ts := by
    intro n hn hpref
    rcases List.mem_cons.mp hn with rfl | hn2
    · exact ⟨'f', "r".data, rfl, by decide, by decide⟩
    rcases List.mem_cons.mp hn2 with rfl | hn3
    · exact ⟨'e', "n-US".data, rfl, by decide, by decide⟩
    rcases List.mem_cons.mp hn3 with rfl | hn4
    · exact absurd hpref (by decide)
    · exact absurd hn4 (List.not_mem_nil n)
  obtain ⟨h1, h2⟩ :=
    C10_regex_full_path.1 "notes" ["whatsnew-fr", "whatsnew-en-US", "notes.txt"]
      (fun _ => Except.ok "y") (by decide) (by decide) hgood
      (fun n _ _ => ⟨"y", rfl⟩)
  exact ⟨h1, h2 'f' "r".data "y" (by decide) (by decide) (by decide) rfl⟩

end PlayPublish

